import Mathlib

/-!
# Verification of the Candidate Backing coordinator

A shallow embedding in Lean 4 of the candidate-backing subsystem found in
`node/core/backing/src/lib.rs`, together with theorems settling the frozen
claims about it.  Opaque domain values (hashes, validator ids, signature
payloads, attestations) are modelled as natural numbers; hash maps and hash
sets are modelled as association lists / lists of keys, with lookup
semantics; machine `usize` arithmetic never overflows in the embedded
fragments except for the explicit `usize::MAX` sentinel, which is modelled
as `2 ^ 64 - 1`.
-/

namespace Backing

abbrev Hash := Nat
abbrev CandidateHash := Nat
abbrev ValidatorIndex := Nat
abbrev ParaId := Nat
abbrev SessionIndex := Nat
abbrev ValidatorId := Nat

/-- Model of Rust `usize::MAX` on a 64-bit target. -/
def USIZE_MAX : Nat := 2 ^ 64 - 1

/-! ## Generic list helpers (association-list maps, indexing) -/

theorem mem_iff_getD {α : Type} (l : List α) (a d : α) :
    a ∈ l ↔ ∃ k, k < l.length ∧ l.getD k d = a := by
  induction l with
  | nil => simp
  | cons x xs ih =>
    constructor
    · intro h
      rcases List.mem_cons.mp h with h | h
      · exact ⟨0, by simp, by simpa using h.symm⟩
      · rcases ih.mp h with ⟨k, hk, hval⟩
        exact ⟨k + 1, by simpa using hk, by simpa using hval⟩
    · rintro ⟨k, hk, hval⟩
      cases k with
      | zero => simp at hval; simp [hval]
      | succ k =>
        have : a ∈ xs := ih.mpr ⟨k, by simpa using hk, by simpa using hval⟩
        exact List.mem_cons_of_mem _ this

theorem getD_map_of_lt {α β : Type} (f : α → β) (l : List α) (d : α) (e : β)
    (k : Nat) (hk : k < l.length) :
    (l.map f).getD k e = f (l.getD k d) := by
  induction l generalizing k with
  | nil => simp at hk
  | cons x xs ih =>
    cases k with
    | zero => simp
    | succ k => simpa using ih k (by simpa using hk)

theorem nodup_getD_inj {α : Type} (l : List α) (d : α) (h : l.Nodup)
    (i j : Nat) (hi : i < l.length) (hj : j < l.length)
    (heq : l.getD i d = l.getD j d) : i = j := by
  induction l generalizing i j with
  | nil => simp at hi
  | cons x xs ih =>
    have hx : x ∉ xs := (List.nodup_cons.mp h).1
    have hxs : xs.Nodup := (List.nodup_cons.mp h).2
    cases i with
    | zero =>
      cases j with
      | zero => rfl
      | succ j =>
        exfalso
        apply hx
        have hj' : j < xs.length := by simpa using hj
        have : xs.getD j d = x := by simpa using heq.symm
        exact (mem_iff_getD xs x d).mpr ⟨j, hj', this⟩
    | succ i =>
      cases j with
      | zero =>
        exfalso
        apply hx
        have hi' : i < xs.length := by simpa using hi
        have : xs.getD i d = x := by simpa using heq
        exact (mem_iff_getD xs x d).mpr ⟨i, hi', this⟩
      | succ j =>
        have := ih hxs i j (by simpa using hi) (by simpa using hj) (by simpa using heq)
        simpa using this

theorem lookup_isSome_iff_mem_fst {β : Type} (l : List (Nat × β)) (k : Nat) :
    (l.lookup k).isSome = true ↔ k ∈ l.map Prod.fst := by
  induction l with
  | nil => simp [List.lookup]
  | cons x xs ih =>
    by_cases h : k = x.1
    · subst h
      simp [List.lookup]
    · have hne : (k == x.1) = false := by simpa using h
      simp only [List.lookup, hne, List.map_cons, List.mem_cons]
      rw [ih]
      constructor
      · exact fun hmem => Or.inr hmem
      · rintro (hmem | hmem)
        · exact absurd hmem.symm (fun hh => h hh.symm)
        · exact hmem

theorem lookup_eq_none_of_not_mem_fst {β : Type} (l : List (Nat × β)) (k : Nat)
    (h : k ∉ l.map Prod.fst) : l.lookup k = none := by
  cases hl : l.lookup k with
  | none => rfl
  | some v =>
    exfalso
    apply h
    rw [← lookup_isSome_iff_mem_fst]
    simp [hl]

theorem lookup_getD_of_nodup_fst {β : Type} (l : List (Nat × β)) (d : Nat × β)
    (hn : (l.map Prod.fst).Nodup) (i : Nat) (hi : i < l.length) :
    l.lookup (l.getD i d).1 = some (l.getD i d).2 := by
  induction l generalizing i with
  | nil => simp at hi
  | cons x xs ih =>
    obtain ⟨xk, xv⟩ := x
    rw [List.map_cons, List.nodup_cons] at hn
    obtain ⟨hx, hxs⟩ := hn
    cases i with
    | zero => simp [List.lookup]
    | succ i =>
      have hi' : i < xs.length := by simpa using hi
      have hmem : (xs.getD i d).1 ∈ xs.map Prod.fst := by
        have hm : xs.getD i d ∈ xs := (mem_iff_getD xs _ d).mpr ⟨i, hi', rfl⟩
        exact List.mem_map_of_mem Prod.fst hm
      have hne : ((xs.getD i d).1 == xk) = false := by
        simp only [beq_eq_false_iff_ne, ne_eq]
        intro hcontr
        exact hx (hcontr ▸ hmem)
      have hrec := ih hxs i hi'
      simp only [List.getD_cons_succ, List.lookup, hne]
      exact hrec

/-! ## Statement table threshold (C2)

Source: `node/core/backing/src/lib.rs`, `minimum_votes` (lines 1378-1383) and
`TableContext::requisite_votes` (lines 1413-1415).
-/

/-- How many votes we need to consider a candidate backed.
Source: `fn minimum_votes(n_validators: usize) -> usize { std::cmp::min(2, n_validators) }`. -/
def minimum_votes (n_validators : Nat) : Nat := min 2 n_validators

/-- The session-scoped table context: this node's validator index (if any),
the `ParaId -> Vec<ValidatorIndex>` group map, and the validator set. -/
structure TableContext where
  validator : Option ValidatorIndex
  groups : List (ParaId × List ValidatorIndex)
  validators : List ValidatorId

/-- `self.groups.get(group)` on the context's group map. -/
def TableContext.groupFor (ctx : TableContext) (group : ParaId) : Option (List ValidatorIndex) :=
  ctx.groups.lookup group

/-- Source: `fn requisite_votes(&self, group: &ParaId) -> usize {
  self.groups.get(group).map_or(usize::MAX, |g| minimum_votes(g.len())) }`. -/
def requisite_votes (ctx : TableContext) (group : ParaId) : Nat :=
  match ctx.groupFor group with
  | some g => minimum_votes g.length
  | none => USIZE_MAX

/-- Modelled from the spec: `Table::attested_candidate` lives in the external
`statement-table` crate (only its caller is under `src/`).  Per the spec
(§4.1): "attested(candidate): returns the candidate plus collected validity
votes iff `|votes| >= requisite_votes(group)`".  We model the threshold
decision on the number of collected validity votes. -/
def attested (ctx : TableContext) (group : ParaId) (n_validity_votes : Nat) : Bool :=
  decide (requisite_votes ctx group ≤ n_validity_votes)

/-- C2: for every group known to the table context, a candidate is reported
as attested iff the number of validity votes collected for it is at least
`min(2, |group|)`. -/
theorem C2_attested_iff_min_votes (ctx : TableContext) (p : ParaId)
    (g : List ValidatorIndex) (h : ctx.groupFor p = some g) (n : Nat) :
    attested ctx p n = true ↔ min 2 g.length ≤ n := by
  simp [attested, requisite_votes, h, minimum_votes]

/-- Witness for C2 at a concrete context: group of size 3 assigned to para 7,
two validity votes reach the threshold `min(2,3) = 2`. -/
theorem C2_attested_iff_min_votes_witness :
    attested ⟨some 0, [(7, [0, 1, 2])], [0, 1, 2]⟩ 7 2 = true ↔ min 2 3 ≤ 2 := by
  have h : (⟨some 0, [(7, [0, 1, 2])], [0, 1, 2]⟩ : TableContext).groupFor 7
      = some [0, 1, 2] := rfl
  simpa using C2_attested_iff_min_votes ⟨some 0, [(7, [0, 1, 2])], [0, 1, 2]⟩ 7 [0, 1, 2] h 2

/-! ## Per-relay-parent construction: the core-assignment loop (C5)

Source: `construct_per_relay_parent_state`, lines 660-685.  The runtime data
(availability cores, validator groups, group rotation) arrive as inputs; the
loop scans the cores in ascending core-index order and, for each `Scheduled`
core whose rotated group contains this node's validator index, overwrites
`assignment` with that core's para.
-/

inductive CoreState where
  | scheduled (para_id : ParaId) (collator : Option Nat)
  | occupied (para_id : ParaId)
  | free
deriving DecidableEq

/-- `validator.as_ref().map_or(false, |v| g.contains(&v.index()))`. -/
def our_index_in (validator : Option ValidatorIndex) (g : List ValidatorIndex) : Bool :=
  match validator with
  | some v => g.contains v
  | none => false

/-- `HashMap::insert` on the para-id -> group map (overwrite semantics). -/
def groups_insert (m : List (ParaId × List ValidatorIndex)) (k : ParaId)
    (v : List ValidatorIndex) : List (ParaId × List ValidatorIndex) :=
  (k, v) :: m.filter (fun p => !(p.1 == k))

/-- One iteration of the `for (idx, core) in cores.into_iter().enumerate()`
loop (source lines 664-676). -/
def core_step (group_for_core : Nat → Nat → Nat)
    (validator_groups : List (List ValidatorIndex))
    (n_cores : Nat) (validator : Option ValidatorIndex)
    (acc : Option (ParaId × Option Nat) × List (ParaId × List ValidatorIndex))
    (idx_core : Nat × CoreState) :
    Option (ParaId × Option Nat) × List (ParaId × List ValidatorIndex) :=
  match idx_core.2 with
  | .scheduled para collator =>
    match validator_groups[group_for_core idx_core.1 n_cores]? with
    | some g =>
      (if our_index_in validator g then some (para, collator) else acc.1,
       groups_insert acc.2 para g)
    | none => acc
  | _ => acc

/-- The assignment and group-map computation of
`construct_per_relay_parent_state` (lines 660-685), including the final
`assignment.map(|(a, _required_collator)| a)`. -/
def construct_assignment_and_groups (group_for_core : Nat → Nat → Nat)
    (validator_groups : List (List ValidatorIndex))
    (validator : Option ValidatorIndex) (cores : List CoreState) :
    Option ParaId × List (ParaId × List ValidatorIndex) :=
  let n_cores := cores.length
  let r := cores.enum.foldl (core_step group_for_core validator_groups n_cores validator)
    (none, [])
  (r.1.map Prod.fst, r.2)

/-- The scheduled cores (in core-index order) whose rotated group contains
this node's validator index, as `(para_id, collator)` pairs. -/
def matching_scheduled_cores (group_for_core : Nat → Nat → Nat)
    (validator_groups : List (List ValidatorIndex))
    (validator : Option ValidatorIndex) (n_cores : Nat)
    (enum_cores : List (Nat × CoreState)) : List (ParaId × Option Nat) :=
  enum_cores.filterMap (fun ic =>
    match ic.2 with
    | .scheduled para collator =>
      match validator_groups[group_for_core ic.1 n_cores]? with
      | some g => if our_index_in validator g then some (para, collator) else none
      | none => none
    | _ => none)

/-- The last element of a list, defaulting to `a` for the empty list
(semantics of repeatedly overwriting an accumulator). -/
def last_or {α : Type} (a : Option α) : List α → Option α
  | [] => a
  | x :: xs => last_or (some x) xs

theorem foldl_core_step_fst (group_for_core : Nat → Nat → Nat)
    (validator_groups : List (List ValidatorIndex))
    (n : Nat) (v : Option ValidatorIndex) :
    ∀ (l : List (Nat × CoreState)) (a : Option (ParaId × Option Nat))
      (m : List (ParaId × List ValidatorIndex)),
    (l.foldl (core_step group_for_core validator_groups n v) (a, m)).1
      = last_or a (matching_scheduled_cores group_for_core validator_groups v n l) := by
  intro l
  induction l with
  | nil => intro a m; simp [matching_scheduled_cores, last_or]
  | cons ic l ih =>
    intro a m
    obtain ⟨i, c⟩ := ic
    cases c with
    | scheduled para collator =>
      simp only [List.foldl_cons, matching_scheduled_cores, List.filterMap_cons]
      cases hg : validator_groups[group_for_core i n]? with
      | none =>
        simp only [core_step, hg]
        simpa [matching_scheduled_cores] using ih a m
      | some g =>
        by_cases hin : our_index_in v g = true
        · simp only [core_step, hg, hin, if_pos]
          have := ih (some (para, collator)) (groups_insert m para g)
          simp only [matching_scheduled_cores] at this
          simpa [last_or, hin] using this
        · simp only [core_step, hg, hin]
          have := ih a (groups_insert m para g)
          simp only [matching_scheduled_cores] at this
          simpa [last_or, hin] using this
    | occupied p =>
      simp only [List.foldl_cons, matching_scheduled_cores, List.filterMap_cons]
      simp only [core_step]
      simpa [matching_scheduled_cores] using ih a m
    | free =>
      simp only [List.foldl_cons, matching_scheduled_cores, List.filterMap_cons]
      simp only [core_step]
      simpa [matching_scheduled_cores] using ih a m

/-- C5 counterexample: two scheduled cores (core 0 for para 10, core 1 for
para 20) whose rotated groups both contain our validator index 0.  The claim
says the first match (para 10) determines the assignment; the code records
para 20, because each later match overwrites `assignment`. -/
theorem C5_first_match_counterexample :
    (construct_assignment_and_groups (fun i _ => i) [[0], [0]] (some 0)
        [CoreState.scheduled 10 none, CoreState.scheduled 20 none]).1 = some 20
    ∧ (some 20 : Option ParaId) ≠ some 10 := by
  exact ⟨rfl, by decide⟩

/-- C5 (amended): the node's assignment is the para of the LAST scheduled
core (in ascending core-index order) whose rotated group contains this
node's validator index, because each match overwrites the accumulator. -/
theorem C5_last_match_determines_assignment (group_for_core : Nat → Nat → Nat)
    (validator_groups : List (List ValidatorIndex))
    (validator : Option ValidatorIndex) (cores : List CoreState) :
    (construct_assignment_and_groups group_for_core validator_groups validator cores).1
      = (last_or none (matching_scheduled_cores group_for_core validator_groups validator
          cores.length cores.enum)).map Prod.fst := by
  simp only [construct_assignment_and_groups]
  rw [foldl_core_step_fst]

/-! ## PoV-fetch fallback data and the background Attest result (C9, C10) -/

/-- Plain candidate receipt (descriptor data relevant to the embedding, plus
a model of `candidate.hash()`). -/
structure CandidateReceipt where
  para_id : ParaId
  relay_parent : Hash
  pov_hash : Hash
  chash : CandidateHash
deriving DecidableEq

/-- Source struct `AttestingData` (lines 1366-1376). -/
structure AttestingData where
  candidate : CandidateReceipt
  pov_hash : Hash
  from_validator : ValidatorIndex
  backing : List ValidatorIndex
deriving DecidableEq

/-- The fields of `PerRelayParentState` touched by the `Attest` arm of
`handle_validated_candidate_command`; `signed_valid` records the candidates
for which `sign_import_and_distribute_statement(Valid)` ran. -/
structure AttestState where
  awaiting_validation : List CandidateHash
  issued_statements : List CandidateHash
  fallbacks : List (CandidateHash × AttestingData)
  signed_valid : List CandidateHash
deriving DecidableEq

/-- The `ValidatedCandidateCommand::Attest(res)` arm of
`handle_validated_candidate_command` (lines 708-711 and 765-784), reached
when the relay parent is still present in `per_relay_parent`:
`awaiting_validation.remove`, then `fallbacks.remove`, then (unless already
issued) sign a `Valid` statement when `res` is `Ok` and mark issued. -/
def handle_attest_command (st : AttestState) (candidate_hash : CandidateHash)
    (res_ok : Bool) : AttestState :=
  let st1 : AttestState :=
    { st with
      awaiting_validation := st.awaiting_validation.filter (fun c => !(c == candidate_hash)),
      fallbacks := st.fallbacks.filter (fun p => !(p.1 == candidate_hash)) }
  if candidate_hash ∈ st1.issued_statements then st1
  else
    let st2 := if res_ok then { st1 with signed_valid := candidate_hash :: st1.signed_valid }
      else st1
    { st2 with issued_statements := candidate_hash :: st2.issued_statements }

theorem lookup_filter_ne_none {β : Type} (l : List (Nat × β)) (k : Nat) :
    (l.filter (fun p => !(p.1 == k))).lookup k = none := by
  apply lookup_eq_none_of_not_mem_fst
  intro hmem
  rcases List.mem_map.mp hmem with ⟨p, hp, hfst⟩
  have hkeep := List.of_mem_filter hp
  rw [hfst] at hkeep
  simp at hkeep

/-- C9: after handling a background `Attest` result for a candidate at a
relay parent still present in `per_relay_parent`, the fallbacks map no
longer contains that candidate — on failure (`Attest(Err)`) as well as on
success. -/
theorem C9_attest_result_removes_fallback (st : AttestState)
    (candidate_hash : CandidateHash) (res_ok : Bool) :
    (handle_attest_command st candidate_hash res_ok).fallbacks.lookup candidate_hash
      = none := by
  simp only [handle_attest_command]
  split
  · exact lookup_filter_ne_none st.fallbacks candidate_hash
  · split
    · exact lookup_filter_ne_none st.fallbacks candidate_hash
    · exact lookup_filter_ne_none st.fallbacks candidate_hash

/-- In-place mutation of the fallback entry for `k` (model of mutating
through `fallbacks.get_mut(k)`). -/
def fallbacks_update (m : List (CandidateHash × AttestingData)) (k : CandidateHash)
    (v : AttestingData) : List (CandidateHash × AttestingData) :=
  m.map (fun p => if p.1 == k then (k, v) else p)

/-- Result of the `Statement::Valid` arm of `maybe_validate_and_import`
(lines 1166-1188): the fallbacks map afterwards, and the `AttestingData`
passed on to `kick_off_validation_work` when the fall-through is reached. -/
structure ValidBranchResult where
  fallbacks : List (CandidateHash × AttestingData)
  kicked_off : Option AttestingData
deriving DecidableEq

/-- The `Statement::Valid(candidate_hash)` arm of `maybe_validate_and_import`
for a statement whose summary group equals our assignment (lines 1166-1188):
no fallback entry -> return; sender is ourselves -> return; validation
already awaiting -> enqueue sender into the `backing` retry queue and
return; otherwise retarget `from_validator` to the sender and fall through
to `kick_off_validation_work`. -/
def handle_valid_statement_for_assignment
    (fallbacks : List (CandidateHash × AttestingData))
    (awaiting_validation : List CandidateHash)
    (our_index : Option ValidatorIndex)
    (sender_index : ValidatorIndex)
    (candidate_hash : CandidateHash) : ValidBranchResult :=
  match fallbacks.lookup candidate_hash with
  | none => ⟨fallbacks, none⟩
  | some attesting =>
    if our_index == some sender_index then ⟨fallbacks, none⟩
    else if candidate_hash ∈ awaiting_validation then
      ⟨fallbacks_update fallbacks candidate_hash
        { attesting with backing := attesting.backing ++ [sender_index] }, none⟩
    else
      let a := { attesting with from_validator := sender_index }
      ⟨fallbacks_update fallbacks candidate_hash a, some a⟩

/-- C10: a `Valid` statement carrying this node's own validator index, for a
candidate with existing fallback data, leaves the fallbacks map unchanged
(no retry enqueue, no `from_validator` change) and spawns no attestation
work. -/
theorem C10_own_valid_statement_is_ignored
    (fallbacks : List (CandidateHash × AttestingData))
    (awaiting_validation : List CandidateHash)
    (our_index : Option ValidatorIndex) (sender_index : ValidatorIndex)
    (candidate_hash : CandidateHash) (a : AttestingData)
    (hfb : fallbacks.lookup candidate_hash = some a)
    (hown : our_index = some sender_index) :
    handle_valid_statement_for_assignment fallbacks awaiting_validation our_index
        sender_index candidate_hash = ⟨fallbacks, none⟩ := by
  simp [handle_valid_statement_for_assignment, hfb, hown]

/-- Witness for C10 at a concrete state: candidate 3 has fallback data and
the statement sender is our own index 4. -/
theorem C10_own_valid_statement_is_ignored_witness :
    handle_valid_statement_for_assignment
        [(3, ⟨⟨1, 2, 5, 3⟩, 5, 7, [8]⟩)] [3] (some 4) 4 3
      = ⟨[(3, ⟨⟨1, 2, 5, 3⟩, 5, 7, [8]⟩)], none⟩ := by
  exact C10_own_valid_statement_is_ignored
    [(3, ⟨⟨1, 2, 5, 3⟩, 5, 7, [8]⟩)] [3] (some 4) 4 3 ⟨⟨1, 2, 5, 3⟩, 5, 7, [8]⟩ rfl rfl

/-! ## Backed-set gating and Provisioner emission (C4)

Source: `import_statement`, lines 936-978.  When an import makes a candidate
attested, `rp_state.backed.insert(candidate_hash)` gates the conversion and
the `ProvisionableData::BackedCandidate` message: `HashSet::insert` returns
`true` only if the hash was not already present, and nothing ever removes an
element from `backed` while the relay-parent entry lives.
-/

/-- One `import_statement` call, projected onto the `backed` set and the
emitted `BackedCandidate` messages: `attested_candidate` is the candidate
hash the table reports as newly attested for this import (if any), and
`convert_ok` tells whether `table_attested_to_backed` produced a bundle. -/
def backed_step (backed emitted : List CandidateHash)
    (attested_candidate : Option CandidateHash) (convert_ok : Bool) :
    List CandidateHash × List CandidateHash :=
  match attested_candidate with
  | none => (backed, emitted)
  | some c =>
    if c ∈ backed then (backed, emitted)
    else (c :: backed, if convert_ok then emitted ++ [c] else emitted)

/-- A sequence of imports at one relay parent. -/
def backed_run : List CandidateHash × List CandidateHash →
    List (Option CandidateHash × Bool) → List CandidateHash × List CandidateHash
  | st, [] => st
  | (b, e), (a, k) :: rest => backed_run (backed_step b e a k) rest

theorem backed_run_mono (trace : List (Option CandidateHash × Bool)) :
    ∀ (b e : List CandidateHash) (x : CandidateHash),
      x ∈ b → x ∈ (backed_run (b, e) trace).1 := by
  induction trace with
  | nil => intro b e x hx; simpa [backed_run] using hx
  | cons step rest ih =>
    intro b e x hx
    obtain ⟨a, k⟩ := step
    cases a with
    | none => exact ih b e x hx
    | some c =>
      by_cases hc : c ∈ b
      · simpa [backed_run, backed_step, hc] using ih b e x hx
      · simp only [backed_run, backed_step, if_neg hc]
        exact ih (c :: b) _ x (List.mem_cons_of_mem c hx)

theorem backed_run_count (trace : List (Option CandidateHash × Bool)) :
    ∀ (b e : List CandidateHash) (c : CandidateHash),
      (c ∈ e → c ∈ b) → e.count c ≤ 1 →
      ((backed_run (b, e) trace).2).count c ≤ 1 := by
  induction trace with
  | nil => intro b e c _ hcount; simpa [backed_run] using hcount
  | cons step rest ih =>
    intro b e c hmem hcount
    obtain ⟨a, k⟩ := step
    cases a with
    | none => exact ih b e c hmem hcount
    | some c0 =>
      by_cases hc0 : c0 ∈ b
      · simpa [backed_run, backed_step, hc0] using ih b e c hmem hcount
      · simp only [backed_run, backed_step, if_neg hc0]
        cases k with
        | false =>
          simp only [if_neg (by simp : ¬(false = true))]
          exact ih (c0 :: b) e c (fun h => List.mem_cons_of_mem c0 (hmem h)) hcount
        | true =>
          simp only [if_pos rfl]
          apply ih (c0 :: b) (e ++ [c0]) c
          · intro h
            rcases List.mem_append.mp h with h | h
            · exact List.mem_cons_of_mem c0 (hmem h)
            · simp only [List.mem_singleton] at h
              exact h ▸ List.mem_cons_self c0 b
          · rw [List.count_append]
            by_cases hcc : c = c0
            · subst hcc
              have hnotin : c ∉ e := fun h => hc0 (hmem h)
              have : e.count c = 0 := List.count_eq_zero.mpr hnotin
              simp [this, List.count_singleton]
            · have : List.count c [c0] = 0 :=
                List.count_eq_zero.mpr (by simp [Ne.symm, hcc])
              omega

/-- C4: across any sequence of statement imports at one relay parent, the
`backed` set only grows (membership is never removed), and — starting from
the fresh per-relay-parent state with an empty `backed` set — a
`BackedCandidate` message for a given candidate is emitted to the
Provisioner at most once. -/
theorem C4_backed_candidate_emitted_at_most_once
    (trace : List (Option CandidateHash × Bool)) (c : CandidateHash)
    (b e : List CandidateHash) (hmem : c ∈ b) :
    c ∈ (backed_run (b, e) trace).1
    ∧ ((backed_run ([], []) trace).2).count c ≤ 1 := by
  refine ⟨backed_run_mono trace b e c hmem, ?_⟩
  exact backed_run_count trace [] [] c (fun h => absurd h (List.not_mem_nil c)) (by simp)

/-- Witness for C4: a trace where candidate 3 is reported attested twice
(the second time with the candidate already in `backed`). -/
theorem C4_backed_candidate_emitted_at_most_once_witness :
    (3 : CandidateHash) ∈ (backed_run ([3], []) [(some 3, true), (some 3, true)]).1
    ∧ ((backed_run ([], []) [(some 3, true), (some 3, true)]).2).count 3 ≤ 1 := by
  exact C4_backed_candidate_emitted_at_most_once [(some 3, true), (some 3, true)] 3 [3] []
    (List.mem_singleton.mpr rfl)

/-! ## Seconding request handler (C6)

Source: `handle_second_msg`, lines 1249-1304, and `run_iteration`,
lines 354-371.  The handler looks up the candidate's relay parent in
`per_relay_parent` (returning early when absent), checks the para against
the assignment (returning early on mismatch), and then returns: the
validation spawn is commented out behind a `TODO [now]`, and
`run_iteration` drops `FromOverseer::Communication` messages entirely.
-/

inductive SecondOutcome where
  | ignored_unknown_relay_parent
  | ignored_wrong_assignment
  | spawned_second_validation
  | returned_without_spawning
deriving DecidableEq

/-- The new-path `handle_second_msg`: `per_relay_parent` is given as a map
from relay-parent hash to that entry's `assignment` field. -/
def handle_second_msg (per_relay_parent : List (Hash × Option ParaId))
    (candidate_relay_parent : Hash) (candidate_para : ParaId) : SecondOutcome :=
  match per_relay_parent.lookup candidate_relay_parent with
  | none => .ignored_unknown_relay_parent
  | some assignment =>
    if some candidate_para ≠ assignment then .ignored_wrong_assignment
    else .returned_without_spawning

/-- C6: at the failing input (relay parent 1 known with assignment para 5,
candidate for para 5) the handler returns without spawning background
validation; indeed no input ever produces a `Second` validation spawn. -/
theorem C6_second_msg_never_spawns :
    handle_second_msg [(1, some 5)] 1 5 = SecondOutcome.returned_without_spawning
    ∧ ∀ (prp : List (Hash × Option ParaId)) (rp : Hash) (p : ParaId),
        handle_second_msg prp rp p ≠ SecondOutcome.spawned_second_validation := by
  refine ⟨rfl, ?_⟩
  intro prp rp p
  simp only [handle_second_msg]
  split
  · intro h; exact SecondOutcome.noConfusion h
  · split
    · intro h; exact SecondOutcome.noConfusion h
    · intro h; exact SecondOutcome.noConfusion h

/-! ## Dispute-coordinator dispatch and statement import (C7, C8)

Source: `dispatch_new_statement_to_dispute_coordinator`, lines 849-895, and
`import_statement`, lines 899-934.
-/

/-- Committed candidate receipt: descriptor fields plus commitments, plus a
model of `candidate.hash()`. -/
structure CommittedCandidateReceipt where
  para_id : ParaId
  relay_parent : Hash
  pov_hash : Hash
  commitments : Nat
  chash : CandidateHash
deriving DecidableEq

/-- `CommittedCandidateReceipt::to_plain`: drop the commitments. -/
def CommittedCandidateReceipt.to_plain (c : CommittedCandidateReceipt) : CandidateReceipt :=
  ⟨c.para_id, c.relay_parent, c.pov_hash, c.chash⟩

inductive StatementPayload where
  | seconded (receipt : CommittedCandidateReceipt)
  | valid (candidate_hash : CandidateHash)
deriving DecidableEq

/-- `statement.payload().candidate_hash()`. -/
def StatementPayload.candidate_hash : StatementPayload → CandidateHash
  | .seconded r => r.chash
  | .valid h => h

/-- The `DisputeCoordinatorMessage::ImportStatements` payload assembled by
the dispatch (candidate hash, receipt, session, the single statement's
validator index). -/
structure DisputeImportMessage where
  candidate_hash : CandidateHash
  candidate_receipt : CandidateReceipt
  session : SessionIndex
  validator_index : ValidatorIndex
deriving DecidableEq

/-- `dispatch_new_statement_to_dispute_coordinator` (lines 849-895).
`table_get_candidate` is `rp_state.table.get_candidate` (external
`statement-table` crate); `from_backing_statement_ok` models whether
`SignedDisputeStatement::from_backing_statement(..)` (signature
re-verification, external) succeeds.  Returns `Except.error ()` for
`ValidatorIndexOutOfBounds`, otherwise the message sent (if any). -/
def dispatch_new_statement_to_dispute_coordinator
    (validators : List ValidatorId)
    (table_get_candidate : CandidateHash → Option CommittedCandidateReceipt)
    (session_index : SessionIndex) (candidate_hash : CandidateHash)
    (payload : StatementPayload) (validator_index : ValidatorIndex)
    (from_backing_statement_ok : Bool) :
    Except Unit (Option DisputeImportMessage) :=
  match validators[validator_index]? with
  | none => .error ()
  | some _ =>
    let maybe_candidate_receipt : Option CandidateReceipt :=
      match payload with
      | .seconded receipt => some receipt.to_plain
      | .valid h => (table_get_candidate h).map CommittedCandidateReceipt.to_plain
    let maybe_signed : Option Unit :=
      if from_backing_statement_ok then some () else none
    match maybe_candidate_receipt, maybe_signed with
    | some receipt, some _ =>
      .ok (some ⟨candidate_hash, receipt, session_index, validator_index⟩)
    | _, _ => .ok none

/-- Result of one `import_statement` call: the dispute message sent (if
any), the table afterwards, the summary, and whether
`table.import_statement` was reached at all. -/
structure ImportOutcome (Table Summary : Type) where
  dispute_message : Option DisputeImportMessage
  table : Table
  summary : Option Summary
  imported_into_table : Bool

/-- `import_statement` (lines 899-934), up to the summary: dispatch to the
dispute coordinator first; on `ValidatorIndexOutOfBounds` log a warning and
`return Ok(None)` — before the table import; otherwise import into the
table.  The table itself lives in the external `statement-table` crate, so
its import operation is a parameter. -/
def import_statement {Table Summary : Type}
    (table_import : Table → StatementPayload → ValidatorIndex → Table × Option Summary)
    (table_get : Table → CandidateHash → Option CommittedCandidateReceipt)
    (validators : List ValidatorId) (session_index : SessionIndex) (t : Table)
    (payload : StatementPayload) (validator_index : ValidatorIndex)
    (from_backing_statement_ok : Bool) : ImportOutcome Table Summary :=
  match dispatch_new_statement_to_dispute_coordinator validators (table_get t)
      session_index payload.candidate_hash payload validator_index
      from_backing_statement_ok with
  | .error _ => ⟨none, t, none, false⟩
  | .ok msg =>
    let r := table_import t payload validator_index
    ⟨msg, r.1, r.2, true⟩

/-- C7 counterexample: one session validator, statement with validator index
5 (out of bounds).  The statement is omitted from dispute dispatch, but —
contrary to the claim — the table import does NOT proceed: the table is
left untouched (the concrete `table_import` would have bumped it to 1) and
no summary is produced. -/
theorem C7_out_of_bounds_counterexample :
    (@import_statement Nat Nat
        (fun t _ _ => (t + 1, some 0)) (fun _ _ => none)
        [0] 0 0 (StatementPayload.valid 7) 5 true).imported_into_table = false
    ∧ (@import_statement Nat Nat
        (fun t _ _ => (t + 1, some 0)) (fun _ _ => none)
        [0] 0 0 (StatementPayload.valid 7) 5 true).table = 0
    ∧ (@import_statement Nat Nat
        (fun t _ _ => (t + 1, some 0)) (fun _ _ => none)
        [0] 0 0 (StatementPayload.valid 7) 5 true).dispute_message = none := by
  exact ⟨rfl, rfl, rfl⟩

/-- C7 (amended): a statement whose validator index is out of bounds for the
session validator set is dropped entirely with a logged warning: no dispute
dispatch, no table import, no summary — `import_statement` returns `Ok(None)`
before reaching the table. -/
theorem C7_out_of_bounds_drops_whole_import {Table Summary : Type}
    (table_import : Table → StatementPayload → ValidatorIndex → Table × Option Summary)
    (table_get : Table → CandidateHash → Option CommittedCandidateReceipt)
    (validators : List ValidatorId) (session_index : SessionIndex) (t : Table)
    (payload : StatementPayload) (validator_index : ValidatorIndex)
    (from_backing_statement_ok : Bool)
    (hoob : validators[validator_index]? = none) :
    import_statement table_import table_get validators session_index t payload
        validator_index from_backing_statement_ok
      = ⟨none, t, none, false⟩ := by
  simp [import_statement, dispatch_new_statement_to_dispute_coordinator, hoob]

/-- Witness for the amended C7 at the counterexample input. -/
theorem C7_out_of_bounds_drops_whole_import_witness :
    @import_statement Nat Nat
        (fun t _ _ => (t + 1, some 0)) (fun _ _ => none)
        [0] 0 0 (StatementPayload.valid 7) 5 true
      = ⟨none, 0, none, false⟩ := by
  exact C7_out_of_bounds_drops_whole_import
    (fun t _ _ => (t + 1, some 0)) (fun _ _ => none) [0] 0 0
    (StatementPayload.valid 7) 5 true rfl

/-- C8: a `Valid(candidate_hash)` statement whose candidate has no prior
`Seconded` entry in the table produces no `ImportStatements` message for the
Dispute Coordinator, and when a `Seconded` statement does produce a message,
the receipt it carries comes from the statement payload itself. -/
theorem C8_dispute_receipt_resolution
    (validators : List ValidatorId)
    (table_get : CandidateHash → Option CommittedCandidateReceipt)
    (session_index : SessionIndex) (ch : CandidateHash)
    (validator_index : ValidatorIndex) (sig_ok : Bool)
    (r : CommittedCandidateReceipt) (m : DisputeImportMessage) :
    (table_get ch = none →
      dispatch_new_statement_to_dispute_coordinator validators table_get session_index
          ch (StatementPayload.valid ch) validator_index sig_ok
        ≠ Except.ok (some m))
    ∧ (dispatch_new_statement_to_dispute_coordinator validators table_get session_index
          r.chash (StatementPayload.seconded r) validator_index sig_ok
        = Except.ok (some m) → m.candidate_receipt = r.to_plain) := by
  constructor
  · intro hnone hcontr
    simp only [dispatch_new_statement_to_dispute_coordinator] at hcontr
    cases hv : validators[validator_index]? with
    | none => rw [hv] at hcontr; exact Except.noConfusion hcontr
    | some v =>
      rw [hv] at hcontr
      simp only [hnone, Option.map_none] at hcontr
      cases sig_ok <;> simp at hcontr
  · intro h
    simp only [dispatch_new_statement_to_dispute_coordinator] at h
    cases hv : validators[validator_index]? with
    | none => rw [hv] at h; exact Except.noConfusion h
    | some v =>
      rw [hv] at h
      cases sig_ok with
      | false => simp at h
      | true =>
        simp only [if_pos rfl] at h
        have := Except.ok.inj h
        have := Option.some.inj this
        rw [← this]

/-- Witness for C8: a concrete table with no entry for candidate 7 (no
dispute message for `Valid(7)`), and a concrete `Seconded` dispatch whose
message carries the payload receipt. -/
theorem C8_dispute_receipt_resolution_witness :
    (dispatch_new_statement_to_dispute_coordinator [5] (fun _ => none) 0 7
        (StatementPayload.valid 7) 0 true
      ≠ Except.ok (some ⟨7, ⟨0, 0, 0, 0⟩, 0, 0⟩))
    ∧ (⟨9, ⟨1, 2, 3, 9⟩, 0, 0⟩ : DisputeImportMessage).candidate_receipt
      = (⟨1, 2, 3, 4, 9⟩ : CommittedCandidateReceipt).to_plain := by
  constructor
  · exact (C8_dispute_receipt_resolution [5] (fun _ => none) 0 7 0 true
      ⟨1, 2, 3, 4, 9⟩ ⟨7, ⟨0, 0, 0, 0⟩, 0, 0⟩).1 rfl
  · exact (C8_dispute_receipt_resolution [5] (fun _ => none) 0 7 0 true
      ⟨1, 2, 3, 4, 9⟩ ⟨9, ⟨1, 2, 3, 9⟩, 0, 0⟩).2 rfl

/-! ## Active-leaves update handler (C1)

Source: `handle_active_leaves_update`, lines 411-597.
`prospective_parachains_mode` is hard-wired to `Disabled` (lines 402-409),
so the implicit view is never fed a leaf and its allowed-relay-parent set
stays empty.  The cleanup at lines 455-457 iterates over
`implicit_view.all_allowed_relay_parents()` and REMOVES each from
`per_relay_parent` — it deletes the allowed entries instead of retaining
them, and removes nothing at all when the view is empty, even though the
comment above it says "when prospective parachains are disabled, the
implicit view is empty, which means we'll clean up everything".
-/

/-- The three coordinator indexes touched by the update (relay-parent
entries tracked by key, candidates by (hash, anchoring relay parent)). -/
structure ALState where
  per_leaf : List Hash
  per_relay_parent : List Hash
  per_candidate : List (CandidateHash × Hash)
deriving DecidableEq

/-- `handle_active_leaves_update` in the Disabled mode currently selected by
`prospective_parachains_mode`: remove deactivated leaves from `per_leaf`;
remove every hash of `allowed_relay_parents`
(`implicit_view.all_allowed_relay_parents()`, empty in Disabled mode) from
`per_relay_parent`; retain `per_candidate` entries whose relay parent
survived; then, for an activated leaf not already tracked, insert it into
`per_leaf` and (when `construct_per_relay_parent_state` succeeds, flag
`construct_ok`) into `per_relay_parent`. -/
def handle_active_leaves_update (st : ALState) (activated : Option Hash)
    (deactivated : List Hash) (allowed_relay_parents : List Hash)
    (construct_ok : Bool) : ALState :=
  let per_leaf1 := deactivated.foldl (fun m h => m.filter (fun x => !(x == h))) st.per_leaf
  let prp1 := st.per_relay_parent.filter (fun r => !(allowed_relay_parents.contains r))
  let pc1 := st.per_candidate.filter (fun p => prp1.contains p.2)
  match activated with
  | none => ⟨per_leaf1, prp1, pc1⟩
  | some leaf =>
    if per_leaf1.contains leaf then ⟨per_leaf1, prp1, pc1⟩
    else
      let per_leaf2 := leaf :: per_leaf1
      let prp2 :=
        if prp1.contains leaf then prp1
        else if construct_ok then leaf :: prp1 else prp1
      ⟨per_leaf2, prp2, pc1⟩

/-- C1 failing input: activate leaf 1 (Disabled mode, so the implicit view
stays empty), then deactivate it.  Active leaves and the implicit view are
now both empty, yet `per_relay_parent` still contains leaf 1 — the cleanup
removed nothing, contradicting the claim (and the code's own comment) that
entries outside the union are dropped in the same update. -/
theorem C1_stale_relay_parent_survives_deactivation :
    (handle_active_leaves_update
        (handle_active_leaves_update ⟨[], [], []⟩ (some 1) [] [] true)
        none [1] [] true)
      = ⟨[], [1], []⟩
    ∧ ([1] : List Hash) ≠ [] := by
  exact ⟨rfl, by decide⟩

/-! ## Attested-to-backed conversion (C3)

Source: `table_attested_to_backed`, lines 1435-1482.  The table hands over
the validity votes as `(ValidatorIndex, ValidityAttestation)` pairs in table
order; the conversion computes each voter's position in the assigned group,
sets the corresponding bit, and sorts the votes into ascending group-position
order (Rust `sort_by_key`, a stable sort).
-/

structure TableAttestedCandidate where
  candidate : Nat
  validity_votes : List (ValidatorIndex × Nat)
  group_id : ParaId
deriving DecidableEq

structure BackedCandidate where
  candidate : Nat
  validity_votes : List Nat
  validator_indices : List Bool
deriving DecidableEq

/-- Rust `Iterator::position`: index of the first element equal to `id`. -/
def position (l : List ValidatorIndex) (id : ValidatorIndex) : Option Nat :=
  match l with
  | [] => none
  | x :: xs => if x == id then some 0 else (position xs id).map (· + 1)

/-- The loop of `table_attested_to_backed` collecting `(orig_idx,
pos_in_group)` pairs, with `i` the enumeration counter; aborts with `none`
when a validity vote does not correspond to the group (lines 1458-1471). -/
def collect_positions (group : List ValidatorIndex) (i : Nat) :
    List ValidatorIndex → Option (List (Nat × Nat))
  | [] => some []
  | id :: rest =>
    match position group id with
    | none => none
    | some p => (collect_positions group (i + 1) rest).map (fun tl => (i, p) :: tl)

/-- Stable insertion by ascending second component. -/
def insert_by_pos (x : Nat × Nat) : List (Nat × Nat) → List (Nat × Nat)
  | [] => [x]
  | y :: ys => if x.2 ≤ y.2 then x :: y :: ys else y :: insert_by_pos x ys

/-- Stable sort by ascending second component (model of the stable
`vote_positions.sort_by_key(|(_, pos_in_group)| *pos_in_group)`). -/
def sort_by_pos : List (Nat × Nat) → List (Nat × Nat)
  | [] => []
  | x :: xs => insert_by_pos x (sort_by_pos xs)

/-- `table_attested_to_backed` (lines 1435-1482). -/
def table_attested_to_backed (att : TableAttestedCandidate) (ctx : TableContext) :
    Option BackedCandidate :=
  let ids := att.validity_votes.map Prod.fst
  let votes := att.validity_votes.map Prod.snd
  match ctx.groupFor att.group_id with
  | none => none
  | some group =>
    match collect_positions group 0 ids with
    | none => none
    | some vote_positions =>
      some
        { candidate := att.candidate,
          validity_votes :=
            (sort_by_pos vote_positions).map (fun pr => votes.getD pr.1 0),
          validator_indices :=
            (List.range group.length).map (fun j => vote_positions.any (fun pr => pr.2 == j)) }

theorem position_spec (l : List ValidatorIndex) (id : ValidatorIndex) :
    ∀ p, position l id = some p → p < l.length ∧ l.getD p 0 = id := by
  induction l with
  | nil => intro p h; simp [position] at h
  | cons x xs ih =>
    intro p h
    by_cases hx : (x == id) = true
    · simp only [position, if_pos hx] at h
      have hp : p = 0 := (Option.some.inj h).symm
      subst hp
      exact ⟨Nat.succ_pos _, by simpa using (beq_iff_eq.mp hx)⟩
    · simp only [position, if_neg hx] at h
      cases hq : position xs id with
      | none => rw [hq] at h; simp at h
      | some q =>
        rw [hq] at h
        simp only [Option.map_some'] at h
        have hp : p = q + 1 := (Option.some.inj h).symm
        subst hp
        obtain ⟨hlt, hval⟩ := ih q hq
        exact ⟨by simpa using Nat.succ_lt_succ hlt, by simpa using hval⟩

theorem collect_positions_getD (group : List ValidatorIndex) :
    ∀ (l : List ValidatorIndex) (i : Nat) (vp : List (Nat × Nat)),
    collect_positions group i l = some vp →
    vp.length = l.length ∧
    ∀ k, k < l.length →
      (vp.getD k (0, 0)).1 = i + k ∧
      position group (l.getD k 0) = some (vp.getD k (0, 0)).2 := by
  intro l
  induction l with
  | nil =>
    intro i vp h
    simp only [collect_positions] at h
    have : vp = [] := (Option.some.inj h).symm
    subst this
    exact ⟨rfl, fun k hk => absurd hk (by simp)⟩
  | cons id rest ih =>
    intro i vp h
    simp only [collect_positions] at h
    cases hp : position group id with
    | none => rw [hp] at h; simp at h
    | some p =>
      rw [hp] at h
      cases htl : collect_positions group (i + 1) rest with
      | none => rw [htl] at h; simp at h
      | some tl =>
        rw [htl] at h
        simp only [Option.map_some'] at h
        have hvp : vp = (i, p) :: tl := (Option.some.inj h).symm
        subst hvp
        obtain ⟨hlen, hall⟩ := ih (i + 1) tl htl
        refine ⟨by simpa using hlen, ?_⟩
        intro k hk
        cases k with
        | zero => exact ⟨by simp, by simpa using hp⟩
        | succ k =>
          have hk' : k < rest.length := by simpa using hk
          obtain ⟨h1, h2⟩ := hall k hk'
          constructor
          · simpa [Nat.add_assoc, Nat.add_comm 1 k] using h1
          · simpa using h2

theorem insert_by_pos_perm (x : Nat × Nat) (l : List (Nat × Nat)) :
    (insert_by_pos x l).Perm (x :: l) := by
  induction l with
  | nil => simp [insert_by_pos]
  | cons y ys ih =>
    by_cases h : x.2 ≤ y.2
    · simp [insert_by_pos, h]
    · simp only [insert_by_pos, if_neg h]
      exact (ih.cons y).trans (List.Perm.swap x y ys)

theorem sort_by_pos_perm (l : List (Nat × Nat)) : (sort_by_pos l).Perm l := by
  induction l with
  | nil => simp [sort_by_pos]
  | cons x xs ih =>
    simp only [sort_by_pos]
    exact (insert_by_pos_perm x (sort_by_pos xs)).trans (ih.cons x)

theorem insert_by_pos_pairwise (x : Nat × Nat) (l : List (Nat × Nat))
    (h : l.Pairwise (fun a b => a.2 ≤ b.2)) :
    (insert_by_pos x l).Pairwise (fun a b => a.2 ≤ b.2) := by
  induction l with
  | nil => simp [insert_by_pos]
  | cons y ys ih =>
    rcases List.pairwise_cons.mp h with ⟨hy, hys⟩
    by_cases hxy : x.2 ≤ y.2
    · simp only [insert_by_pos, if_pos hxy]
      refine List.pairwise_cons.mpr ⟨?_, h⟩
      intro z hz
      rcases List.mem_cons.mp hz with hz | hz
      · exact hz ▸ hxy
      · exact Nat.le_trans hxy (hy z hz)
    · simp only [insert_by_pos, if_neg hxy]
      refine List.pairwise_cons.mpr ⟨?_, ih hys⟩
      intro z hz
      have hz' : z ∈ x :: ys := (insert_by_pos_perm x ys).mem_iff.mp hz
      rcases List.mem_cons.mp hz' with hz' | hz'
      · exact hz' ▸ Nat.le_of_not_le hxy
      · exact hy z hz'

theorem sort_by_pos_pairwise (l : List (Nat × Nat)) :
    (sort_by_pos l).Pairwise (fun a b => a.2 ≤ b.2) := by
  induction l with
  | nil => simp [sort_by_pos]
  | cons x xs ih => exact insert_by_pos_pairwise x (sort_by_pos xs) ih

theorem nodup_of_getD_inj {α : Type} (l : List α) (d : α)
    (h : ∀ i j, i < l.length → j < l.length → l.getD i d = l.getD j d → i = j) :
    l.Nodup := by
  induction l with
  | nil => simp
  | cons x xs ih =>
    refine List.nodup_cons.mpr ⟨?_, ?_⟩
    · intro hmem
      rcases (mem_iff_getD xs x d).mp hmem with ⟨k, hk, hval⟩
      have : k + 1 = 0 := h (k + 1) 0 (by simpa using hk) (by simp) (by simpa using hval)
      simp at this
    · exact ih (fun i j hi hj heq =>
        Nat.succ_injective
          (h (i + 1) (j + 1) (by simpa using hi) (by simpa using hj) (by simpa using heq)))

theorem length_filterMap_eq_countP {α β : Type} (f : α → Option β) (l : List α) :
    (l.filterMap f).length = l.countP (fun a => (f a).isSome) := by
  induction l with
  | nil => simp
  | cons x xs ih =>
    cases hx : f x with
    | none => simp [List.filterMap_cons, hx, List.countP_cons, ih]
    | some b => simp [List.filterMap_cons, hx, List.countP_cons, ih]

/-- C3: for every attested candidate successfully converted to a
`BackedCandidate` (given the assigned group, with distinct group members and
one vote per validator as the statement table guarantees), the
`validator_indices` bitvector has length `|group|`, bit `i` is set iff the
`i`-th member of the assigned group contributed a vote, the number of set
bits equals `|validity_votes|`, no votes are dropped, and `validity_votes`
is exactly the votes of the group members read off in ascending group
position (ascending bit position), regardless of table order. -/
theorem C3_backed_candidate_bitfield (att : TableAttestedCandidate)
    (ctx : TableContext) (group : List ValidatorIndex) (bc : BackedCandidate)
    (hg : ctx.groupFor att.group_id = some group)
    (hgroup_nodup : group.Nodup)
    (hids_nodup : (att.validity_votes.map Prod.fst).Nodup)
    (hbc : table_attested_to_backed att ctx = some bc) :
    bc.validator_indices.length = group.length
    ∧ (∀ i, i < group.length →
        (bc.validator_indices.getD i false = true
          ↔ group.getD i 0 ∈ att.validity_votes.map Prod.fst))
    ∧ bc.validator_indices.count true = bc.validity_votes.length
    ∧ bc.validity_votes.length = att.validity_votes.length
    ∧ bc.validity_votes
        = (List.range group.length).filterMap
            (fun j => att.validity_votes.lookup (group.getD j 0)) := by
  simp only [table_attested_to_backed, hg] at hbc
  cases hcp : collect_positions group 0 (att.validity_votes.map Prod.fst) with
  | none => rw [hcp] at hbc; exact absurd hbc (by simp)
  | some vp =>
    rw [hcp] at hbc
    simp only [Option.some.injEq] at hbc
    subst hbc
    have hn : (att.validity_votes.map Prod.fst).length = att.validity_votes.length :=
      List.length_map _ _
    obtain ⟨hlenvp, hpt⟩ := collect_positions_getD group (att.validity_votes.map Prod.fst) 0 vp hcp
    have hvplen : vp.length = att.validity_votes.length := by rw [hlenvp, hn]
    have hfst : ∀ k, k < att.validity_votes.length → (vp.getD k (0, 0)).1 = k := by
      intro k hk
      have := (hpt k (by rw [hn]; exact hk)).1
      simpa using this
    have hpos : ∀ k, k < att.validity_votes.length →
        position group ((att.validity_votes.map Prod.fst).getD k 0)
          = some (vp.getD k (0, 0)).2 := by
      intro k hk
      exact (hpt k (by rw [hn]; exact hk)).2
    have hposlt : ∀ k, k < att.validity_votes.length →
        (vp.getD k (0, 0)).2 < group.length := by
      intro k hk
      exact (position_spec group _ _ (hpos k hk)).1
    have hgval : ∀ k, k < att.validity_votes.length →
        group.getD (vp.getD k (0, 0)).2 0 = (att.validity_votes.map Prod.fst).getD k 0 := by
      intro k hk
      exact (position_spec group _ _ (hpos k hk)).2
    have hkeyinj : ∀ k k', k < att.validity_votes.length → k' < att.validity_votes.length →
        (vp.getD k (0, 0)).2 = (vp.getD k' (0, 0)).2 → k = k' := by
      intro k k' hk hk' he
      have h1 := hgval k hk
      have h2 := hgval k' hk'
      rw [he, h2] at h1
      exact (nodup_getD_inj (att.validity_votes.map Prod.fst) 0 hids_nodup k' k
        (by rw [hn]; exact hk') (by rw [hn]; exact hk) h1).symm
    have hsndnodup : (vp.map Prod.snd).Nodup := by
      apply nodup_of_getD_inj (vp.map Prod.snd) 0
      intro i j hi hj heq
      have hi' : i < vp.length := by simpa using hi
      have hj' : j < vp.length := by simpa using hj
      rw [getD_map_of_lt Prod.snd vp (0, 0) 0 i hi',
        getD_map_of_lt Prod.snd vp (0, 0) 0 j hj'] at heq
      exact hkeyinj i j (hvplen ▸ hi') (hvplen ▸ hj') heq
    have hvpnodup : vp.Nodup := List.Nodup.of_map Prod.snd hsndnodup
    have hmemvp : ∀ pr, pr ∈ vp →
        ∃ k, k < att.validity_votes.length ∧ vp.getD k (0, 0) = pr := by
      intro pr hpr
      rcases (mem_iff_getD vp pr (0, 0)).mp hpr with ⟨k, hk, hval⟩
      exact ⟨k, hvplen ▸ hk, hval⟩
    have hgetmem : ∀ k, k < att.validity_votes.length → vp.getD k (0, 0) ∈ vp := by
      intro k hk
      exact (mem_iff_getD vp _ (0, 0)).mpr ⟨k, by rw [hvplen]; exact hk, rfl⟩
    have hbit : ∀ j, j < group.length →
        ((vp.any (fun pr => pr.2 == j)) = true
          ↔ group.getD j 0 ∈ att.validity_votes.map Prod.fst) := by
      intro j hj
      constructor
      · intro h
        rcases List.any_eq_true.mp h with ⟨pr, hpr, hprj⟩
        have hprj' : pr.2 = j := by simpa using hprj
        rcases hmemvp pr hpr with ⟨k, hk, hval⟩
        have hv := hgval k hk
        rw [hval, hprj'] at hv
        rw [hv]
        exact (mem_iff_getD _ _ 0).mpr ⟨k, by rw [hn]; exact hk, rfl⟩
      · intro h
        rcases (mem_iff_getD _ _ 0).mp h with ⟨k, hk, hval⟩
        have hk' : k < att.validity_votes.length := hn ▸ hk
        have hpk := hgval k hk'
        rw [hval] at hpk
        have hpkj : (vp.getD k (0, 0)).2 = j :=
          nodup_getD_inj group 0 hgroup_nodup _ j (hposlt k hk') hj hpk
        exact List.any_eq_true.mpr ⟨vp.getD k (0, 0), hgetmem k hk', by simpa using hpkj⟩
    have hperm : (sort_by_pos vp).Perm vp := sort_by_pos_perm vp
    have hSsorted : (sort_by_pos vp).Pairwise (fun a b => a.2 ≤ b.2) := sort_by_pos_pairwise vp
    have hSsndnodup : ((sort_by_pos vp).map Prod.snd).Nodup :=
      ((hperm.map Prod.snd).symm).nodup hsndnodup
    have hSne : (sort_by_pos vp).Pairwise (fun a b => a.2 ≠ b.2) :=
      List.pairwise_map.mp hSsndnodup
    have hSlt : (sort_by_pos vp).Pairwise (fun a b => a.2 < b.2) :=
      (hSsorted.and hSne).imp (fun h => Nat.lt_of_le_of_ne h.1 h.2)
    have hRlt : ((List.range group.length).filterMap
        (fun j => vp.find? (fun pr => pr.2 == j))).Pairwise (fun a b => a.2 < b.2) := by
      apply List.Pairwise.filterMap _ ?_ (List.pairwise_lt_range group.length)
      intro a b hab x hx y hy
      have hxa : x.2 = a := by
        have := List.find?_some (Option.mem_def.mp hx)
        simpa using this
      have hyb : y.2 = b := by
        have := List.find?_some (Option.mem_def.mp hy)
        simpa using this
      rw [hxa, hyb]
      exact hab
    have hRnodup : ((List.range group.length).filterMap
        (fun j => vp.find? (fun pr => pr.2 == j))).Nodup :=
      hRlt.imp (fun h heq => absurd (heq ▸ h) (lt_irrefl _))
    have hRmem : ∀ pr, pr ∈ (List.range group.length).filterMap
        (fun j => vp.find? (fun pr => pr.2 == j)) ↔ pr ∈ vp := by
      intro pr
      constructor
      · intro h
        rcases List.mem_filterMap.mp h with ⟨j, _, hfind⟩
        exact List.mem_of_find?_eq_some hfind
      · intro h
        rcases hmemvp pr h with ⟨k, hk, hval⟩
        have hjlt : pr.2 < group.length := by rw [← hval]; exact hposlt k hk
        cases hf : vp.find? (fun q => q.2 == pr.2) with
        | none =>
          exfalso
          have := List.find?_eq_none.mp hf pr h
          simp at this
        | some q =>
          have hq2 : q.2 = pr.2 := by simpa using List.find?_some hf
          rcases hmemvp q (List.mem_of_find?_eq_some hf) with ⟨k', hk', hval'⟩
          have hkk : k' = k := by
            apply hkeyinj k' k hk' hk
            rw [hval', hval]
            exact hq2
          have hqpr : q = pr := by rw [← hval', hkk, hval]
          exact List.mem_filterMap.mpr
            ⟨pr.2, List.mem_range.mpr hjlt, by rw [hf, hqpr]⟩
    have hpermR : ((List.range group.length).filterMap
        (fun j => vp.find? (fun pr => pr.2 == j))).Perm vp :=
      (List.perm_ext_iff_of_nodup hRnodup hvpnodup).mpr hRmem
    haveI : IsAntisymm (Nat × Nat) (fun a b => a.2 < b.2) :=
      ⟨fun a b h1 h2 => absurd h2 (Nat.lt_asymm h1)⟩
    have hSR : sort_by_pos vp
        = (List.range group.length).filterMap (fun j => vp.find? (fun pr => pr.2 == j)) :=
      List.eq_of_perm_of_sorted (hperm.trans hpermR.symm) hSlt hRlt
    have hB1 : ∀ j ∈ List.range group.length,
        Option.map (fun pr : Nat × Nat => (att.validity_votes.map Prod.snd).getD pr.1 0)
            (vp.find? (fun pr => pr.2 == j))
          = att.validity_votes.lookup (group.getD j 0) := by
      intro j hj
      have hjlt : j < group.length := List.mem_range.mp hj
      cases hf : vp.find? (fun pr => pr.2 == j) with
      | none =>
        have hnot : group.getD j 0 ∉ att.validity_votes.map Prod.fst := by
          intro hmem
          rcases List.any_eq_true.mp ((hbit j hjlt).mpr hmem) with ⟨x, hx, hxj⟩
          exact absurd hxj (by simpa using List.find?_eq_none.mp hf x hx)
        rw [lookup_eq_none_of_not_mem_fst att.validity_votes _ hnot]
        simp
      | some pr =>
        have hprj : pr.2 = j := by simpa using List.find?_some hf
        rcases hmemvp pr (List.mem_of_find?_eq_some hf) with ⟨k, hk, hval⟩
        have hk1 : pr.1 = k := by rw [← hval]; exact hfst k hk
        have hgj : group.getD j 0 = (att.validity_votes.map Prod.fst).getD k 0 := by
          have hv := hgval k hk
          rw [hval, hprj] at hv
          exact hv
        have hfst_eq : (att.validity_votes.map Prod.fst).getD k 0
            = (att.validity_votes.getD k (0, 0)).1 :=
          getD_map_of_lt Prod.fst att.validity_votes (0, 0) 0 k hk
        have hsnd_eq : (att.validity_votes.map Prod.snd).getD k 0
            = (att.validity_votes.getD k (0, 0)).2 :=
          getD_map_of_lt Prod.snd att.validity_votes (0, 0) 0 k hk
        have hlk := lookup_getD_of_nodup_fst att.validity_votes (0, 0) hids_nodup k hk
        rw [hgj, hfst_eq, hlk, Option.map_some', hk1, hsnd_eq]
    refine ⟨?_, ?_, ?_, ?_, ?_⟩
    · simp
    · intro i hi
      show ((List.range group.length).map (fun j => vp.any (fun pr => pr.2 == j))).getD i false
          = true ↔ group.getD i 0 ∈ att.validity_votes.map Prod.fst
      have hilt : i < (List.range group.length).length := by simpa using hi
      rw [getD_map_of_lt (fun j => vp.any (fun pr => pr.2 == j)) (List.range group.length)
        0 false i hilt]
      have hri : (List.range group.length).getD i 0 = i := by
        rw [List.getD_eq_getElem (List.range group.length) 0 hilt]
        simp
      rw [hri]
      exact hbit i hi
    · show ((List.range group.length).map (fun j => vp.any (fun pr => pr.2 == j))).count true
        = ((sort_by_pos vp).map (fun pr => (att.validity_votes.map Prod.snd).getD pr.1 0)).length
      rw [List.count_eq_countP, List.countP_map, List.length_map]
      have hcongr1 : (List.range group.length).countP
          ((fun x => x == true) ∘ (fun j => vp.any (fun pr => pr.2 == j)))
          = (List.range group.length).countP
            (fun j => (vp.find? (fun pr => pr.2 == j)).isSome) := by
        apply List.countP_congr
        intro j hj
        simp [List.any_eq_true, List.find?_isSome]
      rw [hcongr1, ← length_filterMap_eq_countP, ← hSR]
    · show ((sort_by_pos vp).map (fun pr => (att.validity_votes.map Prod.snd).getD pr.1 0)).length
        = att.validity_votes.length
      rw [List.length_map, hperm.length_eq, hvplen]
    · show (sort_by_pos vp).map (fun pr => (att.validity_votes.map Prod.snd).getD pr.1 0)
        = (List.range group.length).filterMap
            (fun j => att.validity_votes.lookup (group.getD j 0))
      rw [hSR, List.map_filterMap]
      exact List.filterMap_congr hB1

/-- Witness for C3: group `[10, 11, 12]` for para 5; the table delivers the
votes out of group order (validator 12 first, then validator 10).  The
conversion emits bitfield `[true, false, true]` and the votes reordered into
ascending group position `[4, 7]`. -/
theorem C3_backed_candidate_bitfield_witness :
    ((⟨99, [4, 7], [true, false, true]⟩ : BackedCandidate).validator_indices.length
        = ([10, 11, 12] : List ValidatorIndex).length)
    ∧ (∀ i, i < ([10, 11, 12] : List ValidatorIndex).length →
        ((⟨99, [4, 7], [true, false, true]⟩ : BackedCandidate).validator_indices.getD i false
            = true
          ↔ ([10, 11, 12] : List ValidatorIndex).getD i 0
              ∈ (⟨99, [(12, 7), (10, 4)], 5⟩ : TableAttestedCandidate).validity_votes.map
                  Prod.fst))
    ∧ ((⟨99, [4, 7], [true, false, true]⟩ : BackedCandidate).validator_indices.count true
        = (⟨99, [4, 7], [true, false, true]⟩ : BackedCandidate).validity_votes.length)
    ∧ ((⟨99, [4, 7], [true, false, true]⟩ : BackedCandidate).validity_votes.length
        = (⟨99, [(12, 7), (10, 4)], 5⟩ : TableAttestedCandidate).validity_votes.length)
    ∧ ((⟨99, [4, 7], [true, false, true]⟩ : BackedCandidate).validity_votes
        = (List.range ([10, 11, 12] : List ValidatorIndex).length).filterMap
            (fun j => (⟨99, [(12, 7), (10, 4)], 5⟩ : TableAttestedCandidate).validity_votes.lookup
              (([10, 11, 12] : List ValidatorIndex).getD j 0))) := by
  exact C3_backed_candidate_bitfield
    ⟨99, [(12, 7), (10, 4)], 5⟩ ⟨some 0, [(5, [10, 11, 12])], []⟩
    [10, 11, 12] ⟨99, [4, 7], [true, false, true]⟩
    rfl (by decide) (by decide) (by decide)

end Backing
